import Mathlib

/-!
Shallow embedding of `src/prefect/orion/models/block_data.py` (encrypted
key-value block store) together with the external collaborators it uses,
and proofs of the testable properties stated in the specification.

Modelling conventions:
* Python dicts with string keys are modelled as `Finmap (fun _ : String => Val)`;
  Lean equality of `Finmap` is exactly Python dict equality (key set plus
  per-key values, insertion order ignored).
* Python values occurring in block payloads are modelled by the inductive
  `Val` (None, strings, integers, booleans).
* Mutation of a dict argument (`dict.pop`) is modelled by explicit state
  passing: a function that mutates its argument returns the final value of
  that argument alongside its result.
* Byte strings (the JSON serialization and the Fernet token) are modelled as
  `List Nat`.
* Fallible operations return `Except Err _` (an exception propagating in
  Python corresponds to an `Except.error`).
-/

/-- Model of a Python value stored in a block payload. -/
inductive Val where
  | vnone : Val
  | vstr : String → Val
  | vint : Int → Val
  | vbool : Bool → Val
deriving DecidableEq, Repr

/-- Model of a Python dict with string keys: a finite map, compared
extensionally exactly like Python `==` on dicts. -/
abbrev Dict : Type := Finmap (fun _ : String => Val)

/-- Model of the dict built by `pack_blockdata` and consumed by
`unpack_blockdata`: it always has the shape
`{"name": ..., "blockref": ..., ("blockid": ...,) "data": ...}`, with
`Option` recording which of the three identity keys are present
(`pop(k, None)` of an absent key yields Python `None`). -/
structure PackedBlock where
  name : Option Val
  blockref : Option Val
  blockid : Option Val
  data : Dict
deriving DecidableEq

/-- Model of `pack_blockdata(raw_block)`.  The Python function mutates
`raw_block` with `pop`; the model returns the packed record together with
the final state of the caller's `raw_block` mapping (which is also, by
aliasing, the record's `data` field).  `none` models the `KeyError` raised
when `blockname` or `blockref` is missing (`pop` without a default). -/
def pack_blockdata (raw_block : Dict) : Option (PackedBlock × Dict) :=
  match Finmap.lookup "blockname" raw_block with
  | none => none
  | some nm =>
    let raw1 := Finmap.erase "blockname" raw_block
    match Finmap.lookup "blockref" raw1 with
    | none => none
    | some br =>
      let raw2 := Finmap.erase "blockref" raw1
      let raw3 := Finmap.erase "blockid" raw2
      some ({ name := some nm, blockref := some br, blockid := none, data := raw3 }, raw3)

/-- Model of `unpack_blockdata(blockdata)`: a copy of `blockdata["data"]`
with `blockname`, `blockref`, `blockid` assigned from the record's `name`,
`blockref`, `blockid` (each `pop(k, None)`, so an absent key injects
Python `None`), overwriting any same-named key already in the data. -/
def unpack_blockdata (blockdata : PackedBlock) : Dict :=
  Finmap.insert "blockid" (blockdata.blockid.getD Val.vnone)
    (Finmap.insert "blockref" (blockdata.blockref.getD Val.vnone)
      (Finmap.insert "blockname" (blockdata.name.getD Val.vnone) blockdata.data))

/-- Modelled from the spec: a configuration-store entry
`{key, value}` with value shape `{"fernet_key": <encoded-key>}`
(the generic key-value configuration store lives outside this repository;
spec section 6 gives its interface). -/
structure Configuration where
  key : String
  value : List (String × String)
deriving DecidableEq, Repr

/-- Modelled from the spec: the error of a configuration-store insert whose
unique constraint on the configuration key is violated (spec section 4.1,
option (a): the insert is unique-constrained on the key name). -/
inductive StoreErr where
  | duplicateKey : StoreErr
deriving DecidableEq, Repr

/-- Errors propagating out of the embedded operations. -/
inductive Err where
  | keyPersistenceFailed : Err
  | malformedConfig : Err
  | decryptionFailed : Err
  | jsonError : Err
deriving DecidableEq, Repr

/-- Model of a `cryptography.fernet.Fernet` instance: it is determined by the
key it was constructed with. -/
structure Fernet where
  key : String
deriving DecidableEq, Repr

/-- Modelled from the spec: `read_configuration_by_key(session, key)` of the
external configuration store returns the entry with that key, or `None`. -/
def read_configuration_by_key (store : List Configuration) (k : String) :
    Option Configuration :=
  store.find? (fun c => c.key == k)

/-- Modelled from the spec: `create_configuration(session, c)` of the external
configuration store inserts `c`; the insert is unique-constrained on the
configuration key and fails when an entry with that key already exists. -/
def create_configuration (store : List Configuration) (c : Configuration) :
    Except StoreErr (List Configuration) :=
  match store.find? (fun e => e.key == c.key) with
  | some _ => Except.error StoreErr.duplicateKey
  | none => Except.ok (store ++ [c])

/-- Store-consulting tail of `get_fernet_encryption` (everything after the
environment check), sequential semantics: the configuration store is read and
written within one call with no interleaved writer.  `gen` is the key that
`Fernet.generate_key()` returns on this call. -/
def get_fernet_from_store (gen : String) (store : List Configuration) :
    Except Err Fernet × List Configuration :=
  match read_configuration_by_key store "BLOCK_ENCRYPTION_KEY" with
  | none =>
    let c : Configuration :=
      { key := "BLOCK_ENCRYPTION_KEY", value := [("fernet_key", gen)] }
    match create_configuration store c with
    | Except.error _ => (Except.error Err.keyPersistenceFailed, store)
    | Except.ok store' => (Except.ok { key := gen }, store')
  | some c =>
    match c.value.lookup "fernet_key" with
    | none => (Except.error Err.malformedConfig, store)
    | some k => (Except.ok { key := k }, store)

/-- Model of `get_fernet_encryption(session)`, sequential semantics.
`env` is the value of the `ORION_BLOCK_ENCRYPTION_KEY` environment variable
(`none` when unset); a present-but-empty string is falsy in Python and takes
the store path.  Returns the resolved `Fernet` and the final store. -/
def get_fernet_encryption (env : Option String) (gen : String)
    (store : List Configuration) : Except Err Fernet × List Configuration :=
  match env with
  | some s => if s = "" then get_fernet_from_store gen store else (Except.ok { key := s }, store)
  | none => get_fernet_from_store gen store

/-- Store-consulting tail of `get_fernet_encryption` with the configuration
store's response to each of the two I/O operations supplied explicitly, to
model concurrent interleavings: `readResp` is what the read returns, and
`createResp` is the outcome of the insert, which may fail with a duplicate-key
violation when another writer committed between the read and the insert. -/
def get_fernet_from_store_race (gen : String) (readResp : Option Configuration)
    (createResp : Except StoreErr Unit) : Except Err Fernet :=
  match readResp with
  | none =>
    match createResp with
    | Except.error _ => Except.error Err.keyPersistenceFailed
    | Except.ok _ => Except.ok { key := gen }
  | some c =>
    match c.value.lookup "fernet_key" with
    | none => Except.error Err.malformedConfig
    | some k => Except.ok { key := k }

/-- Model of `get_fernet_encryption(session)` with explicit I/O responses
(see `get_fernet_from_store_race`). -/
def get_fernet_encryption_race (env : Option String) (gen : String)
    (readResp : Option Configuration) (createResp : Except StoreErr Unit) :
    Except Err Fernet :=
  match env with
  | some s =>
    if s = "" then get_fernet_from_store_race gen readResp createResp
    else Except.ok { key := s }
  | none => get_fernet_from_store_race gen readResp createResp

/-- Sequence of `N` sequential `get_fernet_encryption` calls (spec name
`resolve_key`), threading the configuration store; call `i` would generate
key `gens i` if it reaches generation.  Returns the list of per-call results
and the final store. -/
def resolve_key_iter (env : Option String) (gens : Nat → String) :
    Nat → List Configuration → List (Except Err Fernet) × List Configuration
  | 0, store => ([], store)
  | Nat.succ n, store =>
    let r := get_fernet_encryption env (gens 0) store
    let rest := resolve_key_iter env (fun i => gens (i + 1)) n r.2
    (r.1 :: rest.1, rest.2)

/-- Modelled from the spec: injective encoding of an integer as a natural
number, part of the canonical byte encoding used for `json.dumps`. -/
def encodeInt (n : Int) : Nat := if 0 ≤ n then 2 * n.toNat else 2 * (-n).toNat - 1

/-- Decoding inverse of `encodeInt`. -/
def decodeInt (m : Nat) : Int :=
  if m % 2 = 0 then Int.ofNat (m / 2) else -(Int.ofNat ((m + 1) / 2))

theorem decodeInt_encodeInt (n : Int) : decodeInt (encodeInt n) = n := by
  rcases le_or_lt 0 n with h | h
  · have he : encodeInt n = 2 * n.toNat := if_pos h
    rw [he, decodeInt, if_pos (by omega)]
    simp only [Int.ofNat_eq_coe]
    omega
  · have he : encodeInt n = 2 * (-n).toNat - 1 := if_neg (by omega)
    have hk : 1 ≤ (-n).toNat := by omega
    rw [he, decodeInt, if_neg (by omega)]
    simp only [Int.ofNat_eq_coe]
    omega

/-- Character list of a string encoded as its list of Unicode code points. -/
def encodeChars (cs : List Char) : List Nat := cs.map Char.toNat

/-- Modelled from the spec: a string encoded as its length followed by its
code points. -/
def encodeStr (s : String) : List Nat := s.length :: encodeChars s.data

/-- Decoding inverse of `encodeStr`, returning the string and the remaining
bytes, or `none` on malformed input. -/
def decodeStr : List Nat → Option (String × List Nat)
  | [] => none
  | len :: rest =>
    if len ≤ rest.length then
      some (String.mk ((rest.take len).map Char.ofNat), rest.drop len)
    else none

theorem map_ofNat_toNat (cs : List Char) :
    List.map Char.ofNat (List.map Char.toNat cs) = cs := by
  induction cs with
  | nil => rfl
  | cons c t ih => simp only [List.map_cons, Char.ofNat_toNat, ih]

theorem decodeStr_encodeStr (s : String) (rest : List Nat) :
    decodeStr (encodeStr s ++ rest) = some (s, rest) := by
  obtain ⟨cs⟩ := s
  have hlen : String.length ⟨cs⟩ = (encodeChars cs).length := by
    simp [encodeChars, String.length]
  simp only [encodeStr, List.cons_append, decodeStr, hlen]
  rw [if_pos (by simp)]
  rw [List.take_left, List.drop_left, encodeChars, map_ofNat_toNat]

/-- Modelled from the spec: canonical byte encoding of one `Val`
(tag byte followed by the value's payload). -/
def encodeVal : Val → List Nat
  | Val.vnone => [0]
  | Val.vbool b => [1, cond b 1 0]
  | Val.vint n => [2, encodeInt n]
  | Val.vstr s => 3 :: encodeStr s

/-- Decoding inverse of `encodeVal`. -/
def decodeVal : List Nat → Option (Val × List Nat)
  | 0 :: rest => some (Val.vnone, rest)
  | 1 :: b :: rest => some (Val.vbool (b != 0), rest)
  | 2 :: m :: rest => some (Val.vint (decodeInt m), rest)
  | 3 :: rest =>
    match decodeStr rest with
    | some (s, rest') => some (Val.vstr s, rest')
    | none => none
  | _ => none

theorem decodeVal_encodeVal (v : Val) (rest : List Nat) :
    decodeVal (encodeVal v ++ rest) = some (v, rest) := by
  cases v with
  | vnone => rfl
  | vstr s => simp [encodeVal, decodeVal, decodeStr_encodeStr]
  | vint n => simp [encodeVal, decodeVal, decodeInt_encodeInt]
  | vbool b => cases b <;> rfl

/-- Byte encoding of one JSON object entry: key then value. -/
def encodeEntry (e : String × Val) : List Nat := encodeStr e.1 ++ encodeVal e.2

/-- Decoding inverse of `encodeEntry`. -/
def decodeEntry (bs : List Nat) : Option ((String × Val) × List Nat) :=
  match decodeStr bs with
  | none => none
  | some (k, rest) =>
    match decodeVal rest with
    | none => none
    | some (v, rest') => some ((k, v), rest')

theorem decodeEntry_encodeEntry (e : String × Val) (rest : List Nat) :
    decodeEntry (encodeEntry e ++ rest) = some (e, rest) := by
  simp [encodeEntry, decodeEntry, List.append_assoc, decodeStr_encodeStr,
    decodeVal_encodeVal]

/-- Byte encoding of a list of JSON object entries, concatenated. -/
def encodeEntries : List (String × Val) → List Nat
  | [] => []
  | e :: t => encodeEntry e ++ encodeEntries t

/-- Decoding inverse of `encodeEntries` for a known entry count. -/
def decodeEntries : Nat → List Nat → Option (List (String × Val) × List Nat)
  | 0, bs => some ([], bs)
  | Nat.succ n, bs =>
    match decodeEntry bs with
    | none => none
    | some (e, rest) =>
      match decodeEntries n rest with
      | none => none
      | some (l, rest') => some (e :: l, rest')

theorem decodeEntries_encodeEntries (l : List (String × Val)) (rest : List Nat) :
    decodeEntries l.length (encodeEntries l ++ rest) = some (l, rest) := by
  induction l generalizing rest with
  | nil => rfl
  | cons e t ih =>
    simp [encodeEntries, decodeEntries, List.append_assoc,
      decodeEntry_encodeEntry, ih]

/-- Canonical entry list of a dict: entries listed in sorted key order, so
that serialization is well defined on the extensional `Finmap`. -/
def canonicalEntries (d : Dict) : List (String × Val) :=
  ((Finmap.keys d).sort (· ≤ ·)).map (fun k => (k, (Finmap.lookup k d).getD Val.vnone))

/-- Model of `json.dumps(d).encode()`: a canonical byte serialization of the
payload mapping (spec section 4.2: a canonical byte encoding that is the
exact inverse of the deserialization used on decrypt). -/
def jsonDumps (d : Dict) : List Nat :=
  (canonicalEntries d).length :: encodeEntries (canonicalEntries d)

/-- Dict built by inserting a list of entries (a parsed JSON object). -/
def buildDict : List (String × Val) → Dict
  | [] => ∅
  | e :: t => Finmap.insert e.1 e.2 (buildDict t)

/-- Model of `json.loads(bytes)`: the decoding inverse of `jsonDumps`,
`none` on malformed input. -/
def jsonLoads (bs : List Nat) : Option Dict :=
  match bs with
  | [] => none
  | n :: rest =>
    match decodeEntries n rest with
    | some (l, []) => some (buildDict l)
    | _ => none

theorem lookup_buildDict_map (l : List String) (f : String → Val) (a : String) :
    Finmap.lookup a (buildDict (l.map fun k => (k, f k))) =
      if a ∈ l then some (f a) else none := by
  induction l with
  | nil => simp [buildDict]
  | cons k t ih =>
    by_cases hak : a = k
    · subst hak
      simp [buildDict, Finmap.lookup_insert]
    · simp only [List.map_cons, buildDict]
      rw [Finmap.lookup_insert_of_ne _ hak, ih]
      simp [List.mem_cons, hak]

theorem jsonLoads_jsonDumps (d : Dict) : jsonLoads (jsonDumps d) = some d := by
  have h1 : decodeEntries (canonicalEntries d).length
      (encodeEntries (canonicalEntries d)) = some (canonicalEntries d, []) := by
    have := decodeEntries_encodeEntries (canonicalEntries d) []
    simpa using this
  have h2 : buildDict (canonicalEntries d) = d := by
    apply Finmap.ext_lookup
    intro a
    rw [canonicalEntries, lookup_buildDict_map]
    by_cases ha : a ∈ (Finmap.keys d).sort (· ≤ ·)
    · rw [if_pos ha]
      have hmem : a ∈ d := Finmap.mem_keys.mp ((Finset.mem_sort _).mp ha)
      have hsome : (Finmap.lookup a d).isSome := Finmap.lookup_isSome.mpr hmem
      cases hlk : Finmap.lookup a d with
      | none => rw [hlk] at hsome; simp at hsome
      | some v => simp [hlk]
    · rw [if_neg ha]
      have hmem : a ∉ d := fun hm => ha ((Finset.mem_sort _).mpr (Finmap.mem_keys.mpr hm))
      cases hlk : Finmap.lookup a d with
      | none => rfl
      | some v =>
        exact absurd (Finmap.lookup_isSome.mp (by rw [hlk]; rfl)) hmem
  rw [jsonDumps, jsonLoads, h1]
  exact congrArg some h2

/-- Modelled from the spec: numeric fingerprint of a Fernet key used by the
model's authentication tag. -/
def fernetKeyNat (k : String) : Nat := (encodeChars k.data).sum + k.length

/-- Modelled from the spec: authentication tag of the model cipher.  The spec
requires an authenticated symmetric scheme whose decrypt detects tampering,
corruption and malformed tokens; the model realises this with a key-dependent
checksum over the payload bytes. -/
def fernetMac (k : String) (p : List Nat) : Nat := Nat.pair (fernetKeyNat k) p.sum

/-- Modelled from the spec: `Fernet.encrypt` producing the token (the
`encrypted_blob` string, modelled at the byte level): the payload bytes
followed by the authentication tag. -/
def fernetEncrypt (k : String) (p : List Nat) : List Nat := p ++ [fernetMac k p]

/-- Modelled from the spec: `Fernet.decrypt`, returning the payload bytes when
the token authenticates under `k` and `none` (the `InvalidToken` error,
spec name `DecryptionFailed`) otherwise. -/
def fernetDecrypt (k : String) (t : List Nat) : Option (List Nat) :=
  match t.getLast? with
  | none => none
  | some m => if m = fernetMac k t.dropLast then some t.dropLast else none

theorem fernetDecrypt_fernetEncrypt (k : String) (p : List Nat) :
    fernetDecrypt k (fernetEncrypt k p) = some p := by
  simp [fernetDecrypt, fernetEncrypt, List.getLast?_concat, List.dropLast_concat]

/-- Model of the envelope `{"encrypted_blob": <token string>}` produced by
`encrypt_blockdata` (the token string is modelled at the byte level). -/
structure Envelope where
  encrypted_blob : List Nat
deriving DecidableEq, Repr, Inhabited

/-- Model of `encrypt_blockdata(session, blockdata)`: resolve the key, JSON
serialize the payload, encrypt into the envelope.  Threads the configuration
store like the Python session does. -/
def encrypt_blockdata (env : Option String) (gen : String)
    (store : List Configuration) (blockdata : Dict) :
    Except Err Envelope × List Configuration :=
  match get_fernet_encryption env gen store with
  | (Except.error e, store') => (Except.error e, store')
  | (Except.ok f, store') =>
    (Except.ok { encrypted_blob := fernetEncrypt f.key (jsonDumps blockdata) }, store')

/-- Model of `decrypt_blockdata(session, blockdata)`: resolve the key,
decrypt the blob, JSON deserialize the payload bytes. -/
def decrypt_blockdata (env : Option String) (gen : String)
    (store : List Configuration) (blockdata : Envelope) :
    Except Err Dict × List Configuration :=
  match get_fernet_encryption env gen store with
  | (Except.error e, store') => (Except.error e, store')
  | (Except.ok f, store') =>
    match fernetDecrypt f.key blockdata.encrypted_blob with
    | none => (Except.error Err.decryptionFailed, store')
    | some bytes =>
      match jsonLoads bytes with
      | none => (Except.error Err.jsonError, store')
      | some d => (Except.ok d, store')

theorem get_fernet_from_store_stable (gen gen' : String)
    (store store' : List Configuration) (f : Fernet)
    (h : get_fernet_from_store gen store = (Except.ok f, store')) :
    get_fernet_from_store gen' store' = (Except.ok f, store') := by
  cases hr : read_configuration_by_key store "BLOCK_ENCRYPTION_KEY" with
  | some c =>
    simp only [get_fernet_from_store, hr] at h
    cases hv : c.value.lookup "fernet_key" with
    | none => simp [hv] at h
    | some k =>
      simp only [hv, Prod.mk.injEq, Except.ok.injEq] at h
      obtain ⟨hf, hs⟩ := h
      subst hf
      subst hs
      simp only [get_fernet_from_store, hr, hv]
  | none =>
    have hr' : store.find? (fun c => c.key == "BLOCK_ENCRYPTION_KEY") = none := hr
    simp only [get_fernet_from_store, hr, create_configuration, hr'] at h
    simp only [Prod.mk.injEq, Except.ok.injEq] at h
    obtain ⟨hf, hs⟩ := h
    subst hf
    subst hs
    have hread : read_configuration_by_key
        (store ++ [{ key := "BLOCK_ENCRYPTION_KEY", value := [("fernet_key", gen)] }])
        "BLOCK_ENCRYPTION_KEY" =
        some { key := "BLOCK_ENCRYPTION_KEY", value := [("fernet_key", gen)] } := by
      rw [read_configuration_by_key, List.find?_append, hr']
      rfl
    simp only [get_fernet_from_store, hread, List.lookup]
    rfl

theorem get_fernet_encryption_stable (env : Option String) (gen gen' : String)
    (store store' : List Configuration) (f : Fernet)
    (h : get_fernet_encryption env gen store = (Except.ok f, store')) :
    get_fernet_encryption env gen' store' = (Except.ok f, store') := by
  cases env with
  | some s =>
    by_cases hs : s = ""
    · simp only [get_fernet_encryption, if_pos hs] at h ⊢
      exact get_fernet_from_store_stable gen gen' store store' f h
    · simp only [get_fernet_encryption, if_neg hs] at h ⊢
      obtain ⟨h1, h2⟩ := Prod.mk.injEq .. ▸ h
      simp_all
  | none =>
    simp only [get_fernet_encryption] at h ⊢
    exact get_fernet_from_store_stable gen gen' store store' f h

/-- C1: for every payload mapping P, decrypting the envelope produced by
encrypting P under the same resolved key returns P: `decrypt(encrypt(P)) == P`.
The decrypt call runs against the configuration store state left by the
encrypt call, so both calls resolve the same key (environment override,
pre-existing configured key, or the key generated and persisted by the
encrypt call). -/
theorem decrypt_encrypt_roundtrip (env : Option String) (gen gen' : String)
    (store store' : List Configuration) (P : Dict) (e : Envelope)
    (h : encrypt_blockdata env gen store P = (Except.ok e, store')) :
    decrypt_blockdata env gen' store' e = (Except.ok P, store') := by
  unfold encrypt_blockdata at h
  rcases hge : get_fernet_encryption env gen store with ⟨res, s1⟩
  rw [hge] at h
  cases res with
  | error err => simp at h
  | ok f =>
    simp only [Prod.mk.injEq, Except.ok.injEq] at h
    obtain ⟨he, hs⟩ := h
    have hg' : get_fernet_encryption env gen' store' = (Except.ok f, store') := by
      rw [← hs]
      exact get_fernet_encryption_stable env gen gen' store s1 f hge
    simp only [decrypt_blockdata, hg', ← he, fernetDecrypt_fernetEncrypt,
      jsonLoads_jsonDumps]

/-- Witness for C1 at a concrete input: empty store, no environment override,
payload `{"token": "abc"}`. -/
theorem decrypt_encrypt_roundtrip_witness :
    decrypt_blockdata none "G2"
        [{ key := "BLOCK_ENCRYPTION_KEY", value := [("fernet_key", "G")] }]
        { encrypted_blob :=
            fernetEncrypt "G" (jsonDumps (Finmap.insert "token" (Val.vstr "abc") ∅)) } =
      (Except.ok (Finmap.insert "token" (Val.vstr "abc") ∅),
       [{ key := "BLOCK_ENCRYPTION_KEY", value := [("fernet_key", "G")] }]) :=
  decrypt_encrypt_roundtrip none "G" "G2" [] _ _ _ (by rfl)

theorem sum_set_add (l : List Nat) (i b : Nat) (hi : i < l.length) :
    (l.set i b).sum + l.getD i 0 = l.sum + b := by
  induction l generalizing i with
  | nil => simp at hi
  | cons x t ih =>
    cases i with
    | zero => simp [List.set, List.sum_cons]; omega
    | succ j =>
      have hj : j < t.length := by simpa using hi
      have := ih j hj
      simp only [List.set, List.sum_cons, List.getD_cons_succ]
      omega

theorem fernetDecrypt_set (k : String) (p : List Nat) (i b : Nat)
    (hi : i < (fernetEncrypt k p).length)
    (hb : b ≠ (fernetEncrypt k p).getD i 0) :
    fernetDecrypt k ((fernetEncrypt k p).set i b) = none := by
  have hlen : (fernetEncrypt k p).length = p.length + 1 := by
    simp [fernetEncrypt]
  rcases lt_or_eq_of_le (Nat.lt_succ_iff.mp (hlen ▸ hi)) with hip | hip
  · have hset : (fernetEncrypt k p).set i b = p.set i b ++ [fernetMac k p] := by
      rw [fernetEncrypt]
      exact List.set_append_left _ _ hip
    have hgd : (fernetEncrypt k p).getD i 0 = p.getD i 0 := by
      rw [fernetEncrypt]
      exact List.getD_append _ _ _ _ hip
    rw [hset]
    simp only [fernetDecrypt, List.getLast?_concat, List.dropLast_concat]
    rw [if_neg]
    intro hmac
    have hsum : p.sum = (p.set i b).sum := by
      have := (Nat.pair_eq_pair.mp hmac).2
      exact this
    have hadd : (p.set i b).sum + p.getD i 0 = p.sum + b := sum_set_add p i b hip
    rw [hgd] at hb
    omega
  · have hset : (fernetEncrypt k p).set i b = p ++ [b] := by
      rw [fernetEncrypt, hip, List.set_append_right _ _ (le_refl p.length)]
      simp
    have hgd : (fernetEncrypt k p).getD i 0 = fernetMac k p := by
      rw [fernetEncrypt, hip, List.getD_append_right _ _ _ _ (le_refl p.length)]
      simp
    rw [hset]
    simp only [fernetDecrypt, List.getLast?_concat, List.dropLast_concat]
    rw [if_neg]
    rw [hgd] at hb
    exact hb

/-- C4: for every envelope produced by encrypt and every single-byte
modification of its `encrypted_blob` (position `i` changed to a different
byte `b`), decrypt on the modified envelope fails with `DecryptionFailed`
and never returns a value.  As in C1 the decrypt call runs against the
store state left by encrypt, so it resolves the same key. -/
theorem decrypt_tampered (env : Option String) (gen gen' : String)
    (store store' : List Configuration) (P : Dict) (e : Envelope) (i b : Nat)
    (h : encrypt_blockdata env gen store P = (Except.ok e, store'))
    (hi : i < e.encrypted_blob.length)
    (hb : b ≠ e.encrypted_blob.getD i 0) :
    decrypt_blockdata env gen' store'
        { encrypted_blob := e.encrypted_blob.set i b } =
      (Except.error Err.decryptionFailed, store') := by
  unfold encrypt_blockdata at h
  rcases hge : get_fernet_encryption env gen store with ⟨res, s1⟩
  rw [hge] at h
  cases res with
  | error err => simp at h
  | ok f =>
    simp only [Prod.mk.injEq, Except.ok.injEq] at h
    obtain ⟨he, hs⟩ := h
    have hg' : get_fernet_encryption env gen' store' = (Except.ok f, store') := by
      rw [← hs]
      exact get_fernet_encryption_stable env gen gen' store s1 f hge
    rw [← he] at hi hb ⊢
    simp only [decrypt_blockdata, hg',
      fernetDecrypt_set f.key (jsonDumps P) i b hi hb]

/-- Witness for C4 at a concrete input: empty payload, first token byte
changed from its actual value to 999. -/
theorem decrypt_tampered_witness :
    decrypt_blockdata none "G2"
        [{ key := "BLOCK_ENCRYPTION_KEY", value := [("fernet_key", "G")] }]
        { encrypted_blob := (fernetEncrypt "G" (jsonDumps (∅ : Dict))).set 0 999 } =
      (Except.error Err.decryptionFailed,
       [{ key := "BLOCK_ENCRYPTION_KEY", value := [("fernet_key", "G")] }]) :=
  decrypt_tampered none "G" "G2" [] _ (∅ : Dict)
    { encrypted_blob := fernetEncrypt "G" (jsonDumps (∅ : Dict)) } 0 999
    (by rfl) (by simp [fernetEncrypt])
    (by
      have hce : canonicalEntries (∅ : Dict) = [] := by
        simp [canonicalEntries, Finmap.keys_empty]
      have hdump : jsonDumps (∅ : Dict) = [0] := by
        rw [jsonDumps, hce]
        rfl
      rw [hdump]
      decide)

/-- C2 counterexample: at the concrete interleaving in which the first read
finds no configured key and the configuration insert then fails because a
concurrent writer already persisted a key (say the winner persisted
`"WINNER"`), `get_fernet_encryption` raises `KeyPersistenceFailed`
immediately; it performs no second read and in particular does not return
the now-persisted winner key.  This refutes the claim that the call recovers
by re-reading and returns the persisted key, with the failure surfacing only
after that retry. -/
theorem key_race_no_retry_counterexample :
    get_fernet_encryption_race none "LOSER" none
        (Except.error StoreErr.duplicateKey) =
      Except.error Err.keyPersistenceFailed ∧
    get_fernet_encryption_race none "LOSER" none
        (Except.error StoreErr.duplicateKey) ≠
      Except.ok { key := "WINNER" } := by
  constructor
  · rfl
  · intro hcontra
    exact Except.noConfusion hcontra

/-- C2 amended: when key resolution finds no configured key, generates one,
and the configuration write cannot be committed because a concurrent writer
already persisted a key, the failure propagates to the caller as
`KeyPersistenceFailed` at once — no re-read or retry happens inside the call
and no key is returned. -/
theorem key_race_propagates (gen : String) (e : StoreErr) :
    get_fernet_encryption_race none gen none (Except.error e) =
      Except.error Err.keyPersistenceFailed := rfl

theorem resolve_key_iter_configured (gens : Nat → String) (n : Nat) (k : String) :
    resolve_key_iter none gens n
        [{ key := "BLOCK_ENCRYPTION_KEY", value := [("fernet_key", k)] }] =
      (List.replicate n (Except.ok { key := k }),
       [{ key := "BLOCK_ENCRYPTION_KEY", value := [("fernet_key", k)] }]) := by
  induction n generalizing gens with
  | zero => rfl
  | succ m ih =>
    have hstep : get_fernet_encryption none (gens 0)
        [{ key := "BLOCK_ENCRYPTION_KEY", value := [("fernet_key", k)] }] =
        (Except.ok { key := k },
         [{ key := "BLOCK_ENCRYPTION_KEY", value := [("fernet_key", k)] }]) := rfl
    simp only [resolve_key_iter, hstep, ih, List.replicate_succ]

/-- C5: calling key resolution N ≥ 1 times sequentially, with no environment
override set and starting from an empty configuration store, persists exactly
one configuration entry under the fixed key name, and all N calls return the
same key material (the key generated by the first call). -/
theorem resolve_key_idempotent (gens : Nat → String) (N : Nat) (hN : 1 ≤ N) :
    resolve_key_iter none gens N [] =
      (List.replicate N (Except.ok { key := gens 0 }),
       [{ key := "BLOCK_ENCRYPTION_KEY", value := [("fernet_key", gens 0)] }]) := by
  cases N with
  | zero => exact absurd hN (by decide)
  | succ n =>
    have hstep : get_fernet_encryption none (gens 0) [] =
        (Except.ok { key := gens 0 },
         [{ key := "BLOCK_ENCRYPTION_KEY", value := [("fernet_key", gens 0)] }]) := rfl
    simp only [resolve_key_iter, hstep, resolve_key_iter_configured,
      List.replicate_succ]

/-- Witness for C5 at a concrete input: three calls, generation source
constantly `"G"`, starting from the empty store. -/
theorem resolve_key_idempotent_witness :
    resolve_key_iter none (fun _ => "G") 3 [] =
      (List.replicate 3 (Except.ok { key := "G" }),
       [{ key := "BLOCK_ENCRYPTION_KEY", value := [("fernet_key", "G")] }]) :=
  resolve_key_idempotent (fun _ => "G") 3 (by decide)

/-- C6: if the environment override variable is present and non-empty, key
resolution wraps it as the key material and returns it immediately; the
configuration store is never read or written on that call — in the sequential
model the store passes through unchanged and the result does not depend on
it, and in the interaction model the result does not depend on the store's
responses at all. -/
theorem env_override_immediate (s : String) (hs : s ≠ "") :
    (∀ gen store, get_fernet_encryption (some s) gen store =
        (Except.ok { key := s }, store)) ∧
    (∀ gen readResp createResp,
        get_fernet_encryption_race (some s) gen readResp createResp =
          Except.ok { key := s }) := by
  constructor
  · intro gen store
    simp [get_fernet_encryption, hs]
  · intro gen readResp createResp
    simp [get_fernet_encryption_race, hs]

/-- Witness for C6 at a concrete input: override `"K"`, a nonempty store and
a failing insert response, neither of which influences the result. -/
theorem env_override_immediate_witness :
    get_fernet_encryption (some "K") "G"
        [{ key := "BLOCK_ENCRYPTION_KEY", value := [("fernet_key", "OLD")] }] =
      (Except.ok { key := "K" },
       [{ key := "BLOCK_ENCRYPTION_KEY", value := [("fernet_key", "OLD")] }]) ∧
    get_fernet_encryption_race (some "K") "G" none
        (Except.error StoreErr.duplicateKey) = Except.ok { key := "K" } :=
  ⟨(env_override_immediate "K" (by decide)).1 "G" _,
   (env_override_immediate "K" (by decide)).2 "G" none (Except.error StoreErr.duplicateKey)⟩

/-- C3: for every flat mapping F containing `blockname` and `blockref`, with
arbitrary extra fields and no `blockid`, packing F and then unpacking the
packed record after a generated id X is merged in yields F with `blockid`
set to X — every caller-supplied field reproduced, `blockid` replaced by the
generated id. -/
theorem pack_unpack_inverse (F : Dict) (n r X : Val)
    (hn : Finmap.lookup "blockname" F = some n)
    (hr : Finmap.lookup "blockref" F = some r)
    (hid : Finmap.lookup "blockid" F = none) :
    ∃ rec rest, pack_blockdata F = some (rec, rest) ∧
      unpack_blockdata { rec with blockid := some X } =
        Finmap.insert "blockid" X F := by
  have h1 : Finmap.lookup "blockref" (Finmap.erase "blockname" F) = some r := by
    rw [Finmap.lookup_erase_ne (by decide)]
    exact hr
  have hpack : pack_blockdata F = some
      ({ name := some n, blockref := some r, blockid := none,
         data := Finmap.erase "blockid"
           (Finmap.erase "blockref" (Finmap.erase "blockname" F)) },
       Finmap.erase "blockid" (Finmap.erase "blockref" (Finmap.erase "blockname" F))) := by
    simp only [pack_blockdata, hn, h1]
  refine ⟨_, _, hpack, ?_⟩
  apply Finmap.ext_lookup
  intro k
  simp only [unpack_blockdata, Option.getD_some]
  by_cases hk1 : k = "blockid"
  · subst hk1
    rw [Finmap.lookup_insert, Finmap.lookup_insert]
  · rw [Finmap.lookup_insert_of_ne _ hk1, Finmap.lookup_insert_of_ne _ hk1]
    by_cases hk2 : k = "blockref"
    · subst hk2
      rw [Finmap.lookup_insert, hr]
    · rw [Finmap.lookup_insert_of_ne _ hk2]
      by_cases hk3 : k = "blockname"
      · subst hk3
        rw [Finmap.lookup_insert, hn]
      · rw [Finmap.lookup_insert_of_ne _ hk3,
          Finmap.lookup_erase_ne hk1, Finmap.lookup_erase_ne hk2,
          Finmap.lookup_erase_ne hk3]

/-- Witness for C3 at a concrete input: `{"blockname": "n", "blockref": "r",
"token": "abc"}` with generated id `"X"`. -/
theorem pack_unpack_inverse_witness :
    ∃ rec rest,
      pack_blockdata
          (Finmap.insert "blockname" (Val.vstr "n")
            (Finmap.insert "blockref" (Val.vstr "r")
              (Finmap.insert "token" (Val.vstr "abc") ∅))) = some (rec, rest) ∧
      unpack_blockdata { rec with blockid := some (Val.vstr "X") } =
        Finmap.insert "blockid" (Val.vstr "X")
          (Finmap.insert "blockname" (Val.vstr "n")
            (Finmap.insert "blockref" (Val.vstr "r")
              (Finmap.insert "token" (Val.vstr "abc") ∅))) :=
  pack_unpack_inverse _ (Val.vstr "n") (Val.vstr "r") (Val.vstr "X")
    (by decide) (by decide) (by decide)

/-- C8: for every stored record (name, block reference and id all present),
unpack produces a flat mapping equal to the record's data with `blockname`,
`blockref` and `blockid` injected from the record's own name, block reference
and id; the injected reserved values overwrite any same-named keys already in
the decrypted data, and every other key keeps its value from the data. -/
theorem unpack_blockdata_reserved_win (nm br bid : Val) (d : Dict) :
    Finmap.lookup "blockname" (unpack_blockdata ⟨some nm, some br, some bid, d⟩) =
      some nm ∧
    Finmap.lookup "blockref" (unpack_blockdata ⟨some nm, some br, some bid, d⟩) =
      some br ∧
    Finmap.lookup "blockid" (unpack_blockdata ⟨some nm, some br, some bid, d⟩) =
      some bid ∧
    ∀ k, k ≠ "blockname" → k ≠ "blockref" → k ≠ "blockid" →
      Finmap.lookup k (unpack_blockdata ⟨some nm, some br, some bid, d⟩) =
        Finmap.lookup k d := by
  simp only [unpack_blockdata, Option.getD_some]
  refine ⟨?_, ?_, ?_, ?_⟩
  · rw [Finmap.lookup_insert_of_ne _ (by decide),
      Finmap.lookup_insert_of_ne _ (by decide), Finmap.lookup_insert]
  · rw [Finmap.lookup_insert_of_ne _ (by decide), Finmap.lookup_insert]
  · rw [Finmap.lookup_insert]
  · intro k hk1 hk2 hk3
    rw [Finmap.lookup_insert_of_ne _ hk3, Finmap.lookup_insert_of_ne _ hk2,
      Finmap.lookup_insert_of_ne _ hk1]

/-- Witness for C8 at a concrete input: the decrypted data already contains a
key `blockid` (value `"stale"`), which the injected record id `"X"`
overwrites, while the ordinary field `token` is reproduced. -/
theorem unpack_blockdata_reserved_win_witness :
    Finmap.lookup "blockid"
        (unpack_blockdata ⟨some (Val.vstr "n"), some (Val.vstr "r"),
          some (Val.vstr "X"),
          Finmap.insert "blockid" (Val.vstr "stale")
            (Finmap.insert "token" (Val.vstr "abc") ∅)⟩) = some (Val.vstr "X") ∧
    Finmap.lookup "token"
        (unpack_blockdata ⟨some (Val.vstr "n"), some (Val.vstr "r"),
          some (Val.vstr "X"),
          Finmap.insert "blockid" (Val.vstr "stale")
            (Finmap.insert "token" (Val.vstr "abc") ∅)⟩) = some (Val.vstr "abc") :=
  ⟨(unpack_blockdata_reserved_win (Val.vstr "n") (Val.vstr "r") (Val.vstr "X")
      (Finmap.insert "blockid" (Val.vstr "stale")
        (Finmap.insert "token" (Val.vstr "abc") ∅))).2.2.1,
   by
    rw [(unpack_blockdata_reserved_win (Val.vstr "n") (Val.vstr "r") (Val.vstr "X")
      (Finmap.insert "blockid" (Val.vstr "stale")
        (Finmap.insert "token" (Val.vstr "abc") ∅))).2.2.2 "token"
        (by decide) (by decide) (by decide)]
    decide⟩

/-- C10 (implicit frame effect): `pack_blockdata` mutates its argument —
after packing, the caller's mapping no longer contains `blockname`,
`blockref` or `blockid` (even when `blockid` was present), and the returned
record's `data` field is that same mutated mapping (modelled as equality of
the returned post-state of the argument and the record's `data`). -/
theorem pack_blockdata_mutates (F : Dict) (rec : PackedBlock) (rest : Dict)
    (h : pack_blockdata F = some (rec, rest)) :
    Finmap.lookup "blockname" rest = none ∧
    Finmap.lookup "blockref" rest = none ∧
    Finmap.lookup "blockid" rest = none ∧
    rec.data = rest := by
  cases h1 : Finmap.lookup "blockname" F with
  | none => simp [pack_blockdata, h1] at h
  | some nm =>
    cases h2 : Finmap.lookup "blockref" (Finmap.erase "blockname" F) with
    | none => simp [pack_blockdata, h1, h2] at h
    | some br =>
      simp only [pack_blockdata, h1, h2, Option.some_inj, Prod.mk.injEq] at h
      obtain ⟨hrec, hrest⟩ := h
      subst hrest
      refine ⟨?_, ?_, ?_, ?_⟩
      · rw [Finmap.lookup_erase_ne (by decide), Finmap.lookup_erase_ne (by decide),
          Finmap.lookup_erase]
      · rw [Finmap.lookup_erase_ne (by decide), Finmap.lookup_erase]
      · rw [Finmap.lookup_erase]
      · rw [← hrec]

/-- Witness for C10 at a concrete input: the caller's mapping carries
`blockname`, `blockref`, a stale `blockid` and an extra field `token`; after
packing only `token` remains. -/
theorem pack_blockdata_mutates_witness :
    Finmap.lookup "blockname" (Finmap.insert "token" (Val.vstr "abc") (∅ : Dict)) = none ∧
    Finmap.lookup "blockref" (Finmap.insert "token" (Val.vstr "abc") (∅ : Dict)) = none ∧
    Finmap.lookup "blockid" (Finmap.insert "token" (Val.vstr "abc") (∅ : Dict)) = none ∧
    (PackedBlock.mk (some (Val.vstr "n")) (some (Val.vstr "r")) none
        (Finmap.insert "token" (Val.vstr "abc") (∅ : Dict))).data =
      Finmap.insert "token" (Val.vstr "abc") (∅ : Dict) :=
  pack_blockdata_mutates
    (Finmap.insert "blockname" (Val.vstr "n")
      (Finmap.insert "blockref" (Val.vstr "r")
        (Finmap.insert "blockid" (Val.vstr "old")
          (Finmap.insert "token" (Val.vstr "abc") ∅))))
    (PackedBlock.mk (some (Val.vstr "n")) (some (Val.vstr "r")) none
      (Finmap.insert "token" (Val.vstr "abc") (∅ : Dict)))
    (Finmap.insert "token" (Val.vstr "abc") (∅ : Dict))
    (by decide)

instance : Inhabited Val := ⟨Val.vnone⟩

/-- Model of a persisted `BlockData` row: engine-generated `id` (opaque,
modelled as a `Val` so it can be injected into the flat block on read),
unique `name`, `blockref` tag and the encrypted envelope in `data`.  The
engine-owned timestamps are not modelled. -/
structure BlockRow where
  id : Val
  name : String
  blockref : String
  data : Envelope
deriving DecidableEq, Repr, Inhabited

/-- Model of `read_block_data_by_name_as_block(session, name)`: select the
row by name (`None` when absent, the NotFound result), decrypt its data and
unpack it into a flat block. -/
def read_block_data_by_name_as_block (env : Option String) (gen : String)
    (store : List Configuration) (tbl : List BlockRow) (name : String) :
    Except Err (Option Dict) × List Configuration :=
  match tbl.find? (fun r => r.name == name) with
  | none => (Except.ok none, store)
  | some r =>
    match decrypt_blockdata env gen store r.data with
    | (Except.error e, store') => (Except.error e, store')
    | (Except.ok d, store') =>
      (Except.ok (some (unpack_blockdata
        { name := some (Val.vstr r.name), blockref := some (Val.vstr r.blockref),
          blockid := some r.id, data := d })), store')

/-- Model of `read_block_data_as_block(session, block_data_id)`: select the
row by id (with a for-update lock, a no-op in the sequential model), decrypt
and unpack as in the read-by-name path. -/
def read_block_data_as_block (env : Option String) (gen : String)
    (store : List Configuration) (tbl : List BlockRow) (block_data_id : Val) :
    Except Err (Option Dict) × List Configuration :=
  match tbl.find? (fun r => r.id == block_data_id) with
  | none => (Except.ok none, store)
  | some r =>
    match decrypt_blockdata env gen store r.data with
    | (Except.error e, store') => (Except.error e, store')
    | (Except.ok d, store') =>
      (Except.ok (some (unpack_blockdata
        { name := some (Val.vstr r.name), blockref := some (Val.vstr r.blockref),
          blockid := some r.id, data := d })), store')

/-- Model of `delete_block_data_by_name(session, name)`: delete the matching
rows, return whether the statement's rowcount was positive together with the
resulting table. -/
def delete_block_data_by_name (tbl : List BlockRow) (name : String) :
    Bool × List BlockRow :=
  (decide (0 < tbl.countP (fun r => r.name == name)),
   tbl.filter (fun r => !(r.name == name)))

/-- C9: absence is surfaced as a boolean or empty result, never an exception.
For a name with no matching record read-by-name returns the empty NotFound
result and delete returns false with the table unchanged; delete returns true
exactly when a row matched; a second delete of the same name returns false;
a read of the name after a delete returns NotFound; and read-by-id of an
absent id also returns the empty NotFound result. -/
theorem absent_name_behaviour :
    (∀ env gen store tbl name, (∀ r ∈ tbl, r.name ≠ name) →
      delete_block_data_by_name tbl name = (false, tbl) ∧
      read_block_data_by_name_as_block env gen store tbl name =
        (Except.ok none, store)) ∧
    (∀ tbl name,
      (delete_block_data_by_name tbl name).1 = true ↔ ∃ r ∈ tbl, r.name = name) ∧
    (∀ tbl name,
      (delete_block_data_by_name
        (delete_block_data_by_name tbl name).2 name).1 = false) ∧
    (∀ env gen store tbl name,
      read_block_data_by_name_as_block env gen store
        (delete_block_data_by_name tbl name).2 name = (Except.ok none, store)) ∧
    (∀ env gen store tbl bid, (∀ r ∈ tbl, r.id ≠ bid) →
      read_block_data_as_block env gen store tbl bid = (Except.ok none, store)) := by
  have habsent : ∀ (tbl : List BlockRow) (name : String),
      (∀ r ∈ tbl, r.name ≠ name) →
      tbl.find? (fun r => r.name == name) = none ∧
      tbl.countP (fun r => r.name == name) = 0 := by
    intro tbl name h
    constructor
    · exact List.find?_eq_none.mpr (fun r hr => by simpa using h r hr)
    · exact List.countP_eq_zero.mpr (fun r hr => by simpa using h r hr)
  have hfilter : ∀ (tbl : List BlockRow) (name : String),
      ∀ r ∈ tbl.filter (fun r => !(r.name == name)), r.name ≠ name := by
    intro tbl name r hr
    have := (List.mem_filter.mp hr).2
    simpa using this
  refine ⟨?_, ?_, ?_, ?_, ?_⟩
  · intro env gen store tbl name h
    obtain ⟨hf, hc⟩ := habsent tbl name h
    constructor
    · rw [delete_block_data_by_name, hc]
      rw [List.filter_eq_self.mpr (fun r hr => by simpa using h r hr)]
      rfl
    · rw [read_block_data_by_name_as_block, hf]
  · intro tbl name
    rw [delete_block_data_by_name]
    simp only [decide_eq_true_eq, List.countP_pos_iff, beq_iff_eq]
  · intro tbl name
    rw [delete_block_data_by_name]
    simp only [decide_eq_false_iff_not, Nat.not_lt, Nat.le_zero]
    exact (habsent _ name (hfilter tbl name)).2
  · intro env gen store tbl name
    simp only [delete_block_data_by_name]
    rw [read_block_data_by_name_as_block,
      (habsent _ name (hfilter tbl name)).1]
  · intro env gen store tbl bid h
    have hf : tbl.find? (fun r => r.id == bid) = none :=
      List.find?_eq_none.mpr (fun r hr => by simpa using h r hr)
    rw [read_block_data_as_block, hf]

/-- Witness for C9 at a concrete input: a one-row table holding `"k1"`; reads
and deletes of the missing name `"k2"` return the empty results, and the
second delete of `"k1"` returns false. -/
theorem absent_name_behaviour_witness :
    (delete_block_data_by_name
        [{ id := Val.vstr "X", name := "k1", blockref := "secret-block",
           data := { encrypted_blob := [0, 1] } }] "k2" =
      (false,
       [{ id := Val.vstr "X", name := "k1", blockref := "secret-block",
          data := { encrypted_blob := [0, 1] } }])) ∧
    (read_block_data_by_name_as_block none "G" []
        [{ id := Val.vstr "X", name := "k1", blockref := "secret-block",
           data := { encrypted_blob := [0, 1] } }] "k2" = (Except.ok none, [])) ∧
    ((delete_block_data_by_name
        (delete_block_data_by_name
          [{ id := Val.vstr "X", name := "k1", blockref := "secret-block",
             data := { encrypted_blob := [0, 1] } }] "k1").2 "k1").1 = false) := by
  have h := (absent_name_behaviour.1
    none "G" []
    [{ id := Val.vstr "X", name := "k1", blockref := "secret-block",
       data := { encrypted_blob := [0, 1] } }] "k2" (by decide))
  exact ⟨h.1, h.2, absent_name_behaviour.2.2.1
    [{ id := Val.vstr "X", name := "k1", blockref := "secret-block",
       data := { encrypted_blob := [0, 1] } }] "k1"⟩

/-- Model of one optional field of the update schema: never set, explicitly
set to Python `None`, or set to a value.  `dict(exclude_unset=True)` drops
the first; the subsequent `None` filter drops the second. -/
inductive UpdField (α : Type) where
  | unset : UpdField α
  | setNone : UpdField α
  | setVal : α → UpdField α
deriving DecidableEq

/-- Modelled from the spec: the sparse update schema
`schemas.actions.BlockDataUpdate` (a sparse field set over the block columns;
the schema class itself lives outside this repository). -/
structure BlockDataUpdate where
  name : UpdField String
  blockref : UpdField String
  data : UpdField Dict
deriving DecidableEq

/-- Column value surviving `dict(exclude_unset=True)` plus the `None` filter:
`some` exactly for the provided columns of the update statement. -/
def UpdField.provided {α : Type} : UpdField α → Option α
  | UpdField.setVal a => some a
  | _ => none

/-- Modelled from the spec: the storage engine's UPDATE statement applied to
one matched row — set exactly the provided columns, leave the rest
unchanged. -/
def applyUpdateRow (nameCol refCol : Option String) (dataCol : Option Envelope)
    (r : BlockRow) : BlockRow :=
  { r with
    name := nameCol.getD r.name,
    blockref := refCol.getD r.blockref,
    data := dataCol.getD r.data }

/-- Model of `update_block_data(session, name, block_data)`: build the update
values (unset fields excluded, then `None`-valued fields dropped), encrypt
the `data` value when provided, execute the UPDATE against the rows matching
`name` and return whether the rowcount was positive. -/
def update_block_data (env : Option String) (gen : String)
    (store : List Configuration) (tbl : List BlockRow) (name : String)
    (block_data : BlockDataUpdate) :
    Except Err Bool × List Configuration × List BlockRow :=
  match block_data.data.provided with
  | some d =>
    match encrypt_blockdata env gen store d with
    | (Except.error e, store') => (Except.error e, store', tbl)
    | (Except.ok envl, store') =>
      (Except.ok (decide (0 < tbl.countP (fun r => r.name == name))), store',
       tbl.map (fun r => if r.name == name then
         applyUpdateRow block_data.name.provided block_data.blockref.provided
           (some envl) r else r))
  | none =>
    (Except.ok (decide (0 < tbl.countP (fun r => r.name == name))), store,
     tbl.map (fun r => if r.name == name then
       applyUpdateRow block_data.name.provided block_data.blockref.provided
         none r else r))

theorem getD_map_row (f : BlockRow → BlockRow) (l : List BlockRow) (i : Nat)
    (hi : i < l.length) :
    (l.map f).getD i default = f (l.getD i default) := by
  induction l generalizing i with
  | nil => simp at hi
  | cons x t ih =>
    cases i with
    | zero => rfl
    | succ j =>
      have hj : j < t.length := by simpa using hi
      simp only [List.map_cons, List.getD_cons_succ]
      exact ih j hj

/-- C7: for every `update(name, partial)` call — fields whose value is
Python `None` are ignored exactly like fields never provided (the call
depends on the update object only through its provided columns); when the
call succeeds, it returns true iff a row matched `name` and false when the
name did not exist; the table keeps its length, unmatched rows are untouched,
matched rows change exactly the provided columns, and when `data` is among
the provided fields exactly that value is encrypted (under the key resolved
during the call) before the update. -/
theorem update_block_data_spec :
    (∀ env gen store tbl name (u u' : BlockDataUpdate),
      u.name.provided = u'.name.provided →
      u.blockref.provided = u'.blockref.provided →
      u.data.provided = u'.data.provided →
      update_block_data env gen store tbl name u =
        update_block_data env gen store tbl name u') ∧
    (∀ env gen store tbl name u b store' tbl',
      update_block_data env gen store tbl name u = (Except.ok b, store', tbl') →
      (b = true ↔ ∃ r ∈ tbl, r.name = name) ∧
      tbl'.length = tbl.length ∧
      (∀ i, i < tbl.length →
        ((tbl.getD i default).name ≠ name →
          tbl'.getD i default = tbl.getD i default) ∧
        ((tbl.getD i default).name = name →
          (tbl'.getD i default).name =
            u.name.provided.getD (tbl.getD i default).name ∧
          (tbl'.getD i default).blockref =
            u.blockref.provided.getD (tbl.getD i default).blockref ∧
          (tbl'.getD i default).id = (tbl.getD i default).id ∧
          (u.data.provided = none →
            (tbl'.getD i default).data = (tbl.getD i default).data) ∧
          ∀ d, u.data.provided = some d →
            ∃ f, get_fernet_encryption env gen store = (Except.ok f, store') ∧
              (tbl'.getD i default).data =
                { encrypted_blob := fernetEncrypt f.key (jsonDumps d) }))) := by
  constructor
  · intro env gen store tbl name u u' h1 h2 h3
    simp only [update_block_data, h1, h2, h3]
  · intro env gen store tbl name u b store' tbl' h
    cases hd : u.data.provided with
    | none =>
      simp only [update_block_data, hd, Prod.mk.injEq, Except.ok.injEq] at h
      obtain ⟨hb, hs, ht⟩ := h
      refine ⟨?_, ?_, ?_⟩
      · rw [← hb]
        simp only [decide_eq_true_eq, List.countP_pos_iff, beq_iff_eq]
      · rw [← ht]
        simp
      · intro i hi
        have hrow := getD_map_row
          (fun r => if r.name == name then
            applyUpdateRow u.name.provided u.blockref.provided none r else r)
          tbl i hi
        have hrow2 : tbl'.getD i default =
            if (tbl.getD i default).name == name then
              applyUpdateRow u.name.provided u.blockref.provided none
                (tbl.getD i default)
            else tbl.getD i default := by
          rw [← ht]
          exact hrow
        rw [hrow2]
        constructor
        · intro hne
          rw [if_neg (by simpa using hne)]
        · intro heq
          rw [if_pos (by simpa using heq)]
          refine ⟨rfl, rfl, rfl, fun _ => rfl, ?_⟩
          intro d hcontra
          exact absurd hcontra (by simp)
    | some d =>
      rcases henc : encrypt_blockdata env gen store d with ⟨res, s1⟩
      cases res with
      | error err =>
        simp only [update_block_data, hd, henc] at h
        simp at h
      | ok envl =>
        have hf : ∃ f, get_fernet_encryption env gen store = (Except.ok f, s1) ∧
            envl = { encrypted_blob := fernetEncrypt f.key (jsonDumps d) } := by
          unfold encrypt_blockdata at henc
          rcases hge : get_fernet_encryption env gen store with ⟨res2, s2⟩
          rw [hge] at henc
          cases res2 with
          | error e2 => simp at henc
          | ok f =>
            simp only [Prod.mk.injEq, Except.ok.injEq] at henc
            obtain ⟨he, hs⟩ := henc
            exact ⟨f, by rw [hs], he.symm⟩
        simp only [update_block_data, hd, henc, Prod.mk.injEq, Except.ok.injEq] at h
        obtain ⟨hb, hs, ht⟩ := h
        refine ⟨?_, ?_, ?_⟩
        · rw [← hb]
          simp only [decide_eq_true_eq, List.countP_pos_iff, beq_iff_eq]
        · rw [← ht]
          simp
        · intro i hi
          have hrow := getD_map_row
            (fun r => if r.name == name then
              applyUpdateRow u.name.provided u.blockref.provided (some envl) r
            else r)
            tbl i hi
          have hrow2 : tbl'.getD i default =
              if (tbl.getD i default).name == name then
                applyUpdateRow u.name.provided u.blockref.provided (some envl)
                  (tbl.getD i default)
              else tbl.getD i default := by
            rw [← ht]
            exact hrow
          rw [hrow2]
          constructor
          · intro hne
            rw [if_neg (by simpa using hne)]
          · intro heq
            rw [if_pos (by simpa using heq)]
            refine ⟨rfl, rfl, rfl, ?_, ?_⟩
            · intro hcontra
              exact absurd hcontra (by simp)
            · intro d' hd'
              obtain rfl : d = d' := by simpa using hd'
              obtain ⟨f, hgf, he⟩ := hf
              refine ⟨f, by rw [← hs]; exact hgf, ?_⟩
              simp only [applyUpdateRow, Option.getD_some]
              exact he

/-- Witness for C7 at a concrete input: a one-row table named `"k1"`.  An
update whose `blockref` field is explicitly `None` behaves exactly like one
with the field never set, and an update of the existing name reports a
matched row. -/
theorem update_block_data_spec_witness :
    (update_block_data none "G" []
        [{ id := Val.vstr "X", name := "k1", blockref := "b",
           data := { encrypted_blob := [0, 1] } }] "k1"
        { name := UpdField.unset, blockref := UpdField.setNone,
          data := UpdField.unset } =
      update_block_data none "G" []
        [{ id := Val.vstr "X", name := "k1", blockref := "b",
           data := { encrypted_blob := [0, 1] } }] "k1"
        { name := UpdField.unset, blockref := UpdField.unset,
          data := UpdField.unset }) ∧
    (true = true ↔ ∃ r ∈
        ([{ id := Val.vstr "X", name := "k1", blockref := "b",
            data := { encrypted_blob := [0, 1] } }] : List BlockRow),
        r.name = "k1") :=
  ⟨update_block_data_spec.1 none "G" [] _ "k1" _ _ rfl rfl rfl,
   (update_block_data_spec.2 none "G" []
      [{ id := Val.vstr "X", name := "k1", blockref := "b",
         data := { encrypted_blob := [0, 1] } }] "k1"
      { name := UpdField.unset, blockref := UpdField.unset,
        data := UpdField.unset } true []
      [{ id := Val.vstr "X", name := "k1", blockref := "b",
         data := { encrypted_blob := [0, 1] } }] (by rfl)).1⟩
